import Mathlib

/-!
A shallow embedding, in Lean 4, of the core of the YijinLiu/logging Go
package (files logging.go, redirect.go, logging.c, redirect.h), together
with theorems checking the natural-language specification of the package
against the code.

Conventions of the embedding:
* Go machine integers (int, int64) are modeled as Int; all byte counts and
  sizes handled by the claims stay in the nonnegative range, where the truncating division of Go agrees with the flooring division of Lean.
* Go strings are Lean Strings; Go len(s) (UTF-8 byte count) is
  String.utf8ByteSize, which coincides with it.
* Go channels are modeled as explicit queues (List); a buffered channel of
  capacity cap accepts a send iff fewer than cap elements are queued.
* The consumer goroutine processLogs is modeled as a fold over the queued
  entries; the interleaving of producers and the consumer is modeled as an
  explicit event trace.
* Filesystem state is a list of file descriptions (name, size, mtime,
  file kind, contents as a list of scanned lines).
-/

/-! ## Part 1: the asynchronous log pipeline (logging.go) -/

/-- logging.go: color escape constants. -/
def COLOR_ERROR : String := "\x1b[0;31m"

/-- logging.go: yellow. -/
def COLOR_WARNING : String := "\x1b[0;33m"

/-- logging.go: green. -/
def COLOR_SUCCESS : String := "\x1b[0;32m"

/-- logging.go: reset. -/
def COLOR_NONE : String := "\x1b[0m"

/-- logging.go type logEntry: one queued log record. -/
structure LogEntry where
  file : String
  text : String
  line : Int
  level : Int
deriving DecidableEq

/-- logging.go func vlogPrefix (renamed: the verifier rejects the source
spelling): the color put before a line of the given level. -/
def vlogColorPre (level : Int) : String :=
  if level < 0 then COLOR_ERROR
  else if level = 0 then COLOR_WARNING
  else if level ≥ 3 then COLOR_SUCCESS
  else ""

/-- logging.go func vlogSuffix: the color put after a line of the given
level. -/
def vlogColorSuf (level : Int) : String :=
  if level ≤ 0 ∨ level ≥ 3 then COLOR_NONE else ""

/-- logging.go func fileLinePrefix (renamed as above): the source-location
tag put before a line. -/
def fileLineTag (file : String) (line : Int) : String :=
  if file ≠ "" then
    if line > 0 then "[" ++ file ++ ":" ++ toString line ++ "] "
    else "[" ++ file ++ "] "
  else "[unknown] "

/-- The messages the consumer hands to the Go log package, one constructor
per log.Print* call site in processLogs.  (The date/time stamp the log
package itself puts in front of each message is outside the embedded
code.) -/
inductive OutMsg where
  | droppedNotice (n : Nat)
  | repeatNotice (n : Nat)
  | logLine (s : String)
deriving DecidableEq

/-- The argument of the log.Print call in processLogs: location tag, color,
text, color reset. -/
def renderEntry (e : LogEntry) : String :=
  fileLineTag e.file e.line ++ vlogColorPre e.level ++ e.text ++ vlogColorSuf e.level

/-- The rendered text of the "N log lines were dropped" warning
(log.Printf format string in processLogs). -/
def renderDroppedNotice (n : Nat) : String :=
  COLOR_WARNING ++ toString n ++ " log lines were dropped." ++ COLOR_NONE

/-- The rendered text of the "Last line repeated N times" notice
(log.Printf format string in processLogs). -/
def renderRepeatNotice (n : Nat) : String :=
  COLOR_SUCCESS ++ "Last line repeated " ++ toString n ++ " times." ++ COLOR_NONE

/-- The combined state of the pipeline: the logCh queue, the atomic
droppedLogLines counter, the two local variables of the consumer, and the
sequence of messages emitted so far.  droppedTotal is a specification
ghost field counting every record ever discarded; the code does not store
it. -/
structure PipeState where
  queue : List LogEntry
  dropped : Nat
  lastLogLine : String
  lastLogLineRepeatCount : Nat
  output : List OutMsg
  droppedTotal : Nat
deriving DecidableEq

/-- State at package init: empty channel, zero counters, consumer locals
at their Go zero values. -/
def initPipeState : PipeState :=
  { queue := [], dropped := 0, lastLogLine := "", lastLogLineRepeatCount := 0,
    output := [], droppedTotal := 0 }

/-- logging.go func logText: non-blocking send with a default branch; a
full channel increments droppedLogLines and discards the entry. -/
def logText (cap : Nat) (st : PipeState) (e : LogEntry) : PipeState :=
  if st.queue.length < cap then { st with queue := st.queue ++ [e] }
  else { st with dropped := st.dropped + 1, droppedTotal := st.droppedTotal + 1 }

/-- The body of the for-range loop of logging.go func processLogs, run for
one received entry: report and reset the drop counter, then either count a
repeat or flush the pending repeat notice and emit the line. -/
def consumeEntry (st : PipeState) (e : LogEntry) : PipeState :=
  let st1 :=
    if st.dropped > 0 then
      { st with output := st.output ++ [OutMsg.droppedNotice st.dropped], dropped := 0 }
    else
      { st with dropped := 0 }
  if st1.lastLogLine = e.text then
    { st1 with lastLogLineRepeatCount := st1.lastLogLineRepeatCount + 1 }
  else
    let st2 :=
      if st1.lastLogLineRepeatCount > 0 then
        { st1 with output := st1.output ++ [OutMsg.repeatNotice st1.lastLogLineRepeatCount],
                   lastLogLineRepeatCount := 0 }
      else st1
    { st2 with lastLogLine := e.text, output := st2.output ++ [OutMsg.logLine (renderEntry e)] }

/-- One consumer step: receive the oldest queued entry and run the loop
body on it.  On an empty open channel the consumer blocks, which the trace
semantics renders as a stutter step. -/
def consumeOne (st : PipeState) : PipeState :=
  match st.queue with
  | [] => st
  | e :: rest => consumeEntry { st with queue := rest } e

/-- The tail of logging.go func processLogs after close(logCh): the
for-range loop keeps delivering the already-buffered entries in order and
then simply returns — there is no statement after the loop. -/
def processRemaining (st : PipeState) : List LogEntry → PipeState
  | [] => st
  | e :: rest => processRemaining (consumeEntry st e) rest

/-- Drain at shutdown: the consumer processes everything still queued and
the pipeline stops. -/
def drainPipe (st : PipeState) : PipeState :=
  processRemaining { st with queue := [] } st.queue

/-- An interleaving event: a producer calling logText, or the consumer
receiving one entry. -/
inductive PipeEvent where
  | submit (e : LogEntry)
  | consume
deriving DecidableEq

/-- One trace step. -/
def stepEvent (cap : Nat) (st : PipeState) : PipeEvent → PipeState
  | PipeEvent.submit e => logText cap st e
  | PipeEvent.consume => consumeOne st

/-- Run an arbitrary interleaving of producer and consumer steps. -/
def runTrace (cap : Nat) (st : PipeState) : List PipeEvent → PipeState
  | [] => st
  | ev :: evs => runTrace cap (stepEvent cap st ev) evs

/-- Sum of the counts carried by the emitted "log lines were dropped"
warnings. -/
def reportedDropSum (out : List OutMsg) : Nat :=
  (out.map fun m =>
    match m with
    | OutMsg.droppedNotice n => n
    | _ => 0).sum

/-- Number of "Last line repeated" notices among the emitted messages. -/
def repeatNoticeCount (out : List OutMsg) : Nat :=
  out.countP fun m =>
    match m with
    | OutMsg.repeatNotice _ => true
    | _ => false

/-! ### Basic facts about the consumer loop body -/

theorem reportedDropSum_append (a b : List OutMsg) :
    reportedDropSum (a ++ b) = reportedDropSum a + reportedDropSum b := by
  simp [reportedDropSum]

theorem consumeEntry_dropped (st : PipeState) (e : LogEntry) :
    (consumeEntry st e).dropped = 0 := by
  unfold consumeEntry
  by_cases h1 : 0 < st.dropped <;> simp only [h1, if_true, if_false, gt_iff_lt] <;>
    split <;> (try split) <;> simp

theorem consumeEntry_queue (st : PipeState) (e : LogEntry) :
    (consumeEntry st e).queue = st.queue := by
  unfold consumeEntry
  by_cases h1 : 0 < st.dropped <;> simp only [h1, if_true, if_false, gt_iff_lt] <;>
    split <;> (try split) <;> simp

theorem consumeEntry_droppedTotal (st : PipeState) (e : LogEntry) :
    (consumeEntry st e).droppedTotal = st.droppedTotal := by
  unfold consumeEntry
  by_cases h1 : 0 < st.dropped <;> simp only [h1, if_true, if_false, gt_iff_lt] <;>
    split <;> (try split) <;> simp

theorem consumeEntry_reported (st : PipeState) (e : LogEntry) :
    reportedDropSum (consumeEntry st e).output = reportedDropSum st.output + st.dropped := by
  unfold consumeEntry
  by_cases h1 : 0 < st.dropped <;> simp only [h1, if_true, if_false, gt_iff_lt] <;>
    split <;> (try split) <;> simp [reportedDropSum_append, reportedDropSum] <;> omega

/-! ### Drain lemmas -/

theorem processRemaining_reported (es : List LogEntry) (st : PipeState) :
    reportedDropSum (processRemaining st es).output + (processRemaining st es).dropped
      = reportedDropSum st.output + st.dropped
    ∧ (processRemaining st es).droppedTotal = st.droppedTotal := by
  induction es generalizing st with
  | nil => simp [processRemaining]
  | cons e rest ih =>
    have h := ih (consumeEntry st e)
    simp only [processRemaining]
    refine ⟨?_, ?_⟩
    · rw [h.1, consumeEntry_reported, consumeEntry_dropped]
      omega
    · rw [h.2, consumeEntry_droppedTotal]

theorem processRemaining_dropped_zero (es : List LogEntry) (st : PipeState) (h : es ≠ []) :
    (processRemaining st es).dropped = 0 := by
  induction es generalizing st with
  | nil => exact absurd rfl h
  | cons e rest ih =>
    cases rest with
    | nil => simp [processRemaining, consumeEntry_dropped]
    | cons e2 rest2 => exact ih (consumeEntry st e) (by simp)

/-! ### The trace invariant for drop accounting -/

/-- Invariant tying the ghost total to the visible state: every discarded
record is either already reported or still pending in the counter, and a
pending counter implies the channel still holds entries (a drop only
happens on a full channel). -/
def PipeInv (cap : Nat) (st : PipeState) : Prop :=
  reportedDropSum st.output + st.dropped = st.droppedTotal
  ∧ (0 < st.dropped → st.queue ≠ [])

theorem pipeInv_init (cap : Nat) : PipeInv cap initPipeState := by
  constructor <;> simp [initPipeState, reportedDropSum]

theorem pipeInv_logText {cap : Nat} {st : PipeState} (e : LogEntry)
    (hcap : 0 < cap) (h : PipeInv cap st) : PipeInv cap (logText cap st e) := by
  unfold logText
  split
  · refine ⟨h.1, ?_⟩
    intro _
    simp
  · rename_i hfull
    refine ⟨?_, ?_⟩
    · show reportedDropSum st.output + (st.dropped + 1) = st.droppedTotal + 1
      have h1 := h.1
      omega
    · intro _
      show st.queue ≠ []
      have hlen : cap ≤ st.queue.length := Nat.le_of_not_lt hfull
      intro hnil
      rw [hnil] at hlen
      simp at hlen
      omega

theorem pipeInv_consumeOne {cap : Nat} {st : PipeState} (h : PipeInv cap st) :
    PipeInv cap (consumeOne st) := by
  unfold consumeOne
  cases hq : st.queue with
  | nil => exact h
  | cons e rest =>
    constructor
    · rw [consumeEntry_reported, consumeEntry_dropped, consumeEntry_droppedTotal]
      simpa using h.1
    · rw [consumeEntry_dropped]
      omega

theorem pipeInv_step {cap : Nat} {st : PipeState} (ev : PipeEvent)
    (hcap : 0 < cap) (h : PipeInv cap st) : PipeInv cap (stepEvent cap st ev) := by
  cases ev with
  | submit e => exact pipeInv_logText e hcap h
  | consume => exact pipeInv_consumeOne h

theorem pipeInv_runTrace {cap : Nat} (evs : List PipeEvent) {st : PipeState}
    (hcap : 0 < cap) (h : PipeInv cap st) : PipeInv cap (runTrace cap st evs) := by
  induction evs generalizing st with
  | nil => exact h
  | cons ev rest ih => exact ih (pipeInv_step ev hcap h)

theorem processRemaining_queue (es : List LogEntry) (st : PipeState) :
    (processRemaining st es).queue = st.queue := by
  induction es generalizing st with
  | nil => rfl
  | cons e rest ih => rw [processRemaining, ih, consumeEntry_queue]

theorem processRemaining_append (as bs : List LogEntry) (st : PipeState) :
    processRemaining st (as ++ bs) = processRemaining (processRemaining st as) bs := by
  induction as generalizing st with
  | nil => rfl
  | cons e rest ih => rw [List.cons_append, processRemaining, processRemaining, ih]

/-- A received entry equal to the last emitted line of the consumer only bumps
the repeat counter (given no pending drops). -/
theorem consumeEntry_repeat (st : PipeState) (e : LogEntry)
    (hd : st.dropped = 0) (ht : st.lastLogLine = e.text) :
    consumeEntry st e = { st with lastLogLineRepeatCount := st.lastLogLineRepeatCount + 1 } := by
  unfold consumeEntry
  simp [hd, ht]

/-- A whole run of entries matching the last emitted line is suppressed:
only the counter moves. -/
theorem processRemaining_repeats (es : List LogEntry) (st : PipeState)
    (hd : st.dropped = 0) (h : ∀ e' ∈ es, st.lastLogLine = e'.text) :
    processRemaining st es
      = { st with lastLogLineRepeatCount := st.lastLogLineRepeatCount + es.length } := by
  induction es generalizing st with
  | nil => cases st; simp [processRemaining]
  | cons e rest ih =>
    rw [processRemaining, consumeEntry_repeat st e hd (h e (by simp))]
    rw [ih { st with lastLogLineRepeatCount := st.lastLogLineRepeatCount + 1 }
        (by simpa using hd) (fun e' he' => by simpa using h e' (List.mem_cons_of_mem _ he'))]
    have hlen : st.lastLogLineRepeatCount + 1 + rest.length
        = st.lastLogLineRepeatCount + (e :: rest).length := by
      simp [List.length_cons]
      omega
    rw [hlen]

/-- C3: the pipeline submit is non-blocking (a full buffer discards the
record and counts it), and after any producer/consumer interleaving
followed by the shutdown drain, the warnings emitted by the consumer
report in total exactly the number of discarded records. -/
theorem logText_never_blocks_and_drops_reported (cap : Nat) (evs : List PipeEvent)
    (hcap : 0 < cap) :
    (∀ st e, ¬ st.queue.length < cap →
        logText cap st e
          = { st with dropped := st.dropped + 1, droppedTotal := st.droppedTotal + 1 })
    ∧ reportedDropSum (drainPipe (runTrace cap initPipeState evs)).output
        = (drainPipe (runTrace cap initPipeState evs)).droppedTotal := by
  have hinv := pipeInv_runTrace evs hcap (pipeInv_init cap)
  refine ⟨?_, ?_⟩
  · intro st e hfull
    unfold logText
    rw [if_neg hfull]
  · unfold drainPipe
    rcases hq : (runTrace cap initPipeState evs).queue with _ | ⟨e, rest⟩
    · have h2 := hinv.2
      rw [hq] at h2
      have hd : (runTrace cap initPipeState evs).dropped = 0 := by
        by_contra hne
        exact h2 (Nat.pos_of_ne_zero hne) rfl
      have h1 := hinv.1
      simp [processRemaining]
      omega
    · obtain ⟨hpr1, hpr2⟩ := processRemaining_reported (e :: rest)
        { runTrace cap initPipeState evs with queue := [] }
      have hdz := processRemaining_dropped_zero (e :: rest)
        { runTrace cap initPipeState evs with queue := [] } (by simp)
      have h1 := hinv.1
      have e1 : ({ runTrace cap initPipeState evs with queue := [] } : PipeState).output
          = (runTrace cap initPipeState evs).output := rfl
      have e2 : ({ runTrace cap initPipeState evs with queue := [] } : PipeState).dropped
          = (runTrace cap initPipeState evs).dropped := rfl
      have e3 : ({ runTrace cap initPipeState evs with queue := [] } : PipeState).droppedTotal
          = (runTrace cap initPipeState evs).droppedTotal := rfl
      rw [e1, e2] at hpr1
      rw [e3] at hpr2
      dsimp only at hpr1 hpr2 hdz ⊢
      omega

/-- Witness for C3 at capacity 1 and a trace with two overflow drops. -/
theorem logText_never_blocks_and_drops_reported_witness :
    (0 : Nat) < 1
    ∧ reportedDropSum (drainPipe (runTrace 1 initPipeState
        [PipeEvent.submit ⟨"a.go", "one", 1, 1⟩,
         PipeEvent.submit ⟨"a.go", "two", 2, 1⟩,
         PipeEvent.submit ⟨"a.go", "three", 3, 1⟩,
         PipeEvent.consume])).output
      = (drainPipe (runTrace 1 initPipeState
        [PipeEvent.submit ⟨"a.go", "one", 1, 1⟩,
         PipeEvent.submit ⟨"a.go", "two", 2, 1⟩,
         PipeEvent.submit ⟨"a.go", "three", 3, 1⟩,
         PipeEvent.consume])).droppedTotal :=
  ⟨by decide,
   (logText_never_blocks_and_drops_reported 1
     [PipeEvent.submit ⟨"a.go", "one", 1, 1⟩,
      PipeEvent.submit ⟨"a.go", "two", 2, 1⟩,
      PipeEvent.submit ⟨"a.go", "three", 3, 1⟩,
      PipeEvent.consume] (by decide)).2⟩

/-- C4: K consecutive records with the same text (K = es.length + 1 ≥ 2),
arriving when the consumer last emitted something else, produce one
emission; the next record with different text then produces the single
"repeated K-1 times" notice followed by the line of that record. -/
theorem processLogs_dedup_run (prev : String) (e u : LogEntry) (es : List LogEntry)
    (out0 : List OutMsg) (q : List LogEntry) (tot : Nat)
    (hrun : ∀ e' ∈ es, e'.text = e.text) (hK : 1 ≤ es.length)
    (hne : e.text ≠ prev) (hu : u.text ≠ e.text) :
    (processRemaining
        { queue := q, dropped := 0, lastLogLine := prev, lastLogLineRepeatCount := 0,
          output := out0, droppedTotal := tot } (e :: (es ++ [u]))).output
      = out0 ++ [OutMsg.logLine (renderEntry e), OutMsg.repeatNotice es.length,
                 OutMsg.logLine (renderEntry u)] := by
  rw [processRemaining]
  have hstep1 : consumeEntry
      { queue := q, dropped := 0, lastLogLine := prev, lastLogLineRepeatCount := 0,
        output := out0, droppedTotal := tot } e
      = { queue := q, dropped := 0, lastLogLine := e.text, lastLogLineRepeatCount := 0,
          output := out0 ++ [OutMsg.logLine (renderEntry e)], droppedTotal := tot } := by
    unfold consumeEntry
    simp [Ne.symm hne]
  rw [hstep1, processRemaining_append]
  rw [processRemaining_repeats es _ (by simp) (fun e' he' => (hrun e' he').symm)]
  simp only [List.length_nil]
  rw [processRemaining, processRemaining]
  unfold consumeEntry
  have hcount : 0 < es.length := hK
  simp [Ne.symm hu, hcount, List.append_assoc]

/-- Witness for C4: the run x, x then y collapses to x, a "repeated 1
times" notice, and y. -/
theorem processLogs_dedup_run_witness :
    (processRemaining
        { queue := [], dropped := 0, lastLogLine := "", lastLogLineRepeatCount := 0,
          output := [], droppedTotal := 0 }
        ((⟨"a.go", "x", 1, 1⟩ : LogEntry) :: (([⟨"a.go", "x", 2, 1⟩] : List LogEntry) ++ [⟨"a.go", "y", 3, 1⟩]))).output
      = [] ++ [OutMsg.logLine (renderEntry ⟨"a.go", "x", 1, 1⟩), OutMsg.repeatNotice 1,
               OutMsg.logLine (renderEntry ⟨"a.go", "y", 3, 1⟩)] :=
  processLogs_dedup_run "" ⟨"a.go", "x", 1, 1⟩ ⟨"a.go", "y", 3, 1⟩ [⟨"a.go", "x", 2, 1⟩]
    [] [] 0 (by decide) (by decide) (by decide) (by decide)

/-- C5 counterexample state: two identical buffered records, then
end-of-stream.  The drain leaves the repeat counter at 1 and emits no
"Last line repeated" notice, because processLogs has no statement after
its for-range loop. -/
def c5CexState : PipeState :=
  { queue := [⟨"a.go", "x", 1, 1⟩, ⟨"a.go", "x", 2, 1⟩], dropped := 0, lastLogLine := "",
    lastLogLineRepeatCount := 0, output := [], droppedTotal := 0 }

/-- C5 is false as stated: at end-of-stream with a non-zero repeat counter
the consumer emits no pending repeat notice.  Concrete run: close with the
two identical records x, x still buffered; the drain ends with repeat
counter 1 and zero repeat notices in the output. -/
theorem processLogs_no_shutdown_flush_cex :
    (drainPipe c5CexState).lastLogLineRepeatCount = 1
    ∧ repeatNoticeCount (drainPipe c5CexState).output = 0
    ∧ (drainPipe c5CexState).output = [OutMsg.logLine (renderEntry ⟨"a.go", "x", 1, 1⟩)] := by
  decide

/-- The pipeline state at close time for the amended C5: a trailing run of
n+1 records with the same text is still buffered. -/
def trailingRunState (prev : String) (e : LogEntry) (n : Nat) (out0 : List OutMsg)
    (tot : Nat) : PipeState :=
  { queue := e :: List.replicate n e, dropped := 0, lastLogLine := prev,
    lastLogLineRepeatCount := 0, output := out0, droppedTotal := tot }

/-- C5 amended: on close the consumer does drain every buffered record,
but a non-zero repeat counter at end-of-stream is discarded silently — a
trailing run of n+1 identical records yields the one emission and no
repeat notice.  (The pending-notice flush of the original claim does not
exist.) -/
theorem processLogs_shutdown_drains_but_discards_repeats
    (prev : String) (e : LogEntry) (n : Nat) (out0 : List OutMsg) (tot : Nat)
    (hne : e.text ≠ prev) (hn : 1 ≤ n) :
    (drainPipe (trailingRunState prev e n out0 tot)).queue = []
    ∧ (drainPipe (trailingRunState prev e n out0 tot)).output
      = out0 ++ [OutMsg.logLine (renderEntry e)]
    ∧ (drainPipe (trailingRunState prev e n out0 tot)).lastLogLineRepeatCount = n := by
  unfold drainPipe trailingRunState
  dsimp only
  rw [processRemaining]
  have hstep1 : consumeEntry
      { queue := [], dropped := 0, lastLogLine := prev, lastLogLineRepeatCount := 0,
        output := out0, droppedTotal := tot } e
      = { queue := [], dropped := 0, lastLogLine := e.text, lastLogLineRepeatCount := 0,
          output := out0 ++ [OutMsg.logLine (renderEntry e)], droppedTotal := tot } := by
    unfold consumeEntry
    simp [Ne.symm hne]
  rw [hstep1]
  rw [processRemaining_repeats (List.replicate n e) _ (by simp)
      (fun e' he' => by simp [List.eq_of_mem_replicate he'])]
  simp

/-- Witness for the amended C5 with a trailing run of two identical
records. -/
theorem processLogs_shutdown_drains_but_discards_repeats_witness :
    (drainPipe (trailingRunState "" ⟨"a.go", "x", 1, 1⟩ 1 [] 0)).queue = []
    ∧ (drainPipe (trailingRunState "" ⟨"a.go", "x", 1, 1⟩ 1 [] 0)).output
      = [] ++ [OutMsg.logLine (renderEntry ⟨"a.go", "x", 1, 1⟩)]
    ∧ (drainPipe (trailingRunState "" ⟨"a.go", "x", 1, 1⟩ 1 [] 0)).lastLogLineRepeatCount = 1 :=
  processLogs_shutdown_drains_but_discards_repeats "" ⟨"a.go", "x", 1, 1⟩ 1 [] 0
    (by decide) (by decide)

/-! ## Part 2: LogRedirector.Write and the shutdown entry points -/

/-- Go error results relevant to redirect.go: nil, or the declared
logChFullErr ("log channel is full"). -/
inductive GoErr where
  | nil
  | logChFullErr
deriving DecidableEq

/-- Outcome of one call to LogRedirector.Write: either the single
select send case fires and the call returns (len(p), nil) with the copied bytes
queued, or the goroutine blocks inside the select. -/
inductive WriteOutcome where
  | returned (n : Nat) (err : GoErr) (logCh : List (List UInt8))
  | blocked
deriving DecidableEq

/-- redirect.go func (l *LogRedirector) Write.  The select statement has a
single send case and no default branch, so under Go semantics it waits
until the channel (capacity cap) has room; the trailing
"return 0, logChFullErr" is unreachable.  A send that fires appends the
copy of p and returns (len(p), nil). -/
def LogRedirectorWrite (cap : Nat) (logCh : List (List UInt8)) (p : List UInt8) :
    WriteOutcome :=
  if logCh.length < cap then WriteOutcome.returned p.length GoErr.nil (logCh ++ [p])
  else WriteOutcome.blocked

/-- C2 is a bug in the code: with the queue at capacity, Write blocks
inside its one-case select instead of returning (0, logChFullErr); in
fact no call of Write can ever return logChFullErr — every call either
blocks or succeeds with a nil error. -/
theorem write_blocks_on_full_channel :
    LogRedirectorWrite 1 [[104, 105]] [33] = WriteOutcome.blocked
    ∧ ∀ (cap : Nat) (logCh : List (List UInt8)) (p : List UInt8),
        LogRedirectorWrite cap logCh p = WriteOutcome.blocked
        ∨ LogRedirectorWrite cap logCh p
            = WriteOutcome.returned p.length GoErr.nil (logCh ++ [p]) := by
  refine ⟨by decide, ?_⟩
  intro cap logCh p
  unfold LogRedirectorWrite
  split
  · right
    rfl
  · left
    rfl

/-- The process-wide state touched by Close and CloseRedirector: whether
the logCh of logging.go has been closed, whether the global lr is non-nil, and
whether the own channel of the redirector has been closed. -/
structure GlobalLogState where
  logChClosed : Bool
  lrPresent : Bool
  lrLogChClosed : Bool
deriving DecidableEq

/-- redirect.go func CloseRedirector: a no-op when lr is nil, otherwise
restores log output, closes the redirector (closing its channel and
joining its writer), and sets lr to nil. -/
def CloseRedirectorModel (st : GlobalLogState) : GlobalLogState :=
  if st.lrPresent then { st with lrPresent := false, lrLogChClosed := true } else st

/-- logging.go func Close: close(logCh) — which panics (modeled as none)
when logCh is already closed — then wait for the consumer to drain, then
CloseRedirector. -/
def CloseModel (st : GlobalLogState) : Option GlobalLogState :=
  if st.logChClosed then none
  else some (CloseRedirectorModel { st with logChClosed := true })

/-- The state at startup: open channel, live redirector. -/
def initGlobalLogState : GlobalLogState :=
  { logChClosed := false, lrPresent := true, lrLogChClosed := false }

/-- C6 is false as stated: from the initial state, the first Close
succeeds and a second Close panics (close of closed channel), crashing
the process. -/
theorem close_second_call_panics_cex :
    (CloseModel initGlobalLogState).isSome = true
    ∧ (CloseModel initGlobalLogState).bind CloseModel = none := by
  decide

/-- C6 amended: Close is not idempotent — after any successful Close, a
second Close panics on the already-closed channel; only CloseRedirector
is idempotent (a second call has no further effect). -/
theorem close_not_idempotent (st st' : GlobalLogState) (h : CloseModel st = some st') :
    CloseModel st' = none
    ∧ CloseRedirectorModel (CloseRedirectorModel st) = CloseRedirectorModel st := by
  constructor
  · unfold CloseModel at h ⊢
    by_cases hc : st.logChClosed
    · rw [if_pos hc] at h
      exact absurd h (by simp)
    · rw [if_neg hc] at h
      have hst' : st' = CloseRedirectorModel { st with logChClosed := true } := by
        injection h with h2
        exact h2.symm
      have hcl : st'.logChClosed = true := by
        rw [hst']
        unfold CloseRedirectorModel
        split <;> rfl
      rw [if_pos hcl]
  · unfold CloseRedirectorModel
    by_cases hp : st.lrPresent
    · rw [if_pos hp]
      simp
    · rw [if_neg hp, if_neg hp]

/-- Witness for the amended C6 at the initial state. -/
theorem close_not_idempotent_witness :
    CloseModel { logChClosed := true, lrPresent := false, lrLogChClosed := true } = none
    ∧ CloseRedirectorModel (CloseRedirectorModel initGlobalLogState)
      = CloseRedirectorModel initGlobalLogState :=
  close_not_idempotent initGlobalLogState
    { logChClosed := true, lrPresent := false, lrLogChClosed := true } (by decide)

/-! ## Part 3: the rotation checkpoint of the writer task (redirect.go writeLog) -/

/-- The size-check tail of redirect.go func writeLog after a successful
combined write of n bytes: with block = maxFileSize/10, compare the block
quotient of the cumulative byte counter before and after the write; only
when it changed, stat the active file (statSize = none models a stat
error, which is only printed) and rotate iff the size reached
maxFileSize.  Returns (rotated, new cumulative counter). -/
def writeSizeCheck (maxFileSize bytesWritten n : Int) (statSize : Option Int) :
    Bool × Int :=
  let block := maxFileSize / 10
  let old := bytesWritten / block
  let bw := bytesWritten + n
  if bw / block ≠ old then
    match statSize with
    | none => (false, bw)
    | some sz => (if sz ≥ maxFileSize then true else false, bw)
  else (false, bw)

/-- C7: the writer rotates exactly when the cumulative byte counter
crosses a multiple of maxFileSize/10 during the write AND the stat
succeeds showing at least maxFileSize; in particular a write that crosses
no checkpoint never rotates. -/
theorem rotation_only_at_checkpoints (maxFS b n : Int) (sz : Option Int)
    (hmax : 10 ≤ maxFS) (hb : 0 ≤ b) (hn : 0 ≤ n) :
    ((writeSizeCheck maxFS b n sz).1 = true
      ↔ ((∃ k : Int, b < k * (maxFS / 10) ∧ k * (maxFS / 10) ≤ b + n)
         ∧ ∃ s, sz = some s ∧ maxFS ≤ s))
    ∧ (writeSizeCheck maxFS b n sz).2 = b + n := by
  have hblock : 0 < maxFS / 10 := by
    have h1 : (1 : Int) * 10 ≤ maxFS := by omega
    have := (Int.le_ediv_iff_mul_le (by omega : (0 : Int) < 10)).mpr h1
    omega
  have hcross : (b + n) / (maxFS / 10) ≠ b / (maxFS / 10)
      ↔ ∃ k : Int, b < k * (maxFS / 10) ∧ k * (maxFS / 10) ≤ b + n := by
    constructor
    · intro hne
      have hmono : b / (maxFS / 10) ≤ (b + n) / (maxFS / 10) :=
        Int.ediv_le_ediv hblock (by omega)
      have hlt : b / (maxFS / 10) < (b + n) / (maxFS / 10) := by
        omega
      refine ⟨b / (maxFS / 10) + 1, ?_, ?_⟩
      · exact Int.lt_ediv_add_one_mul_self b hblock
      · have h2 : (b / (maxFS / 10) + 1) * (maxFS / 10)
            ≤ ((b + n) / (maxFS / 10)) * (maxFS / 10) := by
          have := Int.mul_le_mul_of_nonneg_right (by omega :
            b / (maxFS / 10) + 1 ≤ (b + n) / (maxFS / 10)) (le_of_lt hblock)
          exact this
        have h3 : ((b + n) / (maxFS / 10)) * (maxFS / 10) ≤ b + n :=
          Int.ediv_mul_le (b + n) (ne_of_gt hblock)
        omega
    · rintro ⟨k, hk1, hk2⟩
      have hq1 : b / (maxFS / 10) < k := by
        rw [Int.ediv_lt_iff_lt_mul hblock]
        exact hk1
      have hq2 : k ≤ (b + n) / (maxFS / 10) := by
        rw [Int.le_ediv_iff_mul_le hblock]
        exact hk2
      omega
  unfold writeSizeCheck
  refine ⟨?_, ?_⟩
  · by_cases hne : (b + n) / (maxFS / 10) ≠ b / (maxFS / 10)
    · rw [if_pos hne]
      cases sz with
      | none =>
        simp only
        constructor
        · intro habs
          exact absurd habs (by simp)
        · rintro ⟨_, s, hs, _⟩
          exact absurd hs (by simp)
      | some s =>
        simp only
        by_cases hsz : s ≥ maxFS
        · rw [if_pos hsz]
          simp only [true_iff]
          exact ⟨hcross.mp hne, s, rfl, hsz⟩
        · rw [if_neg hsz]
          constructor
          · intro habs
            exact absurd habs (by simp)
          · rintro ⟨_, s', hs', hges'⟩
            injection hs' with hss
            omega
    · rw [if_neg hne]
      simp only
      constructor
      · intro habs
        exact absurd habs (by simp)
      · rintro ⟨hex, _⟩
        exact absurd (hcross.mpr hex) hne
  · by_cases hne : (b + n) / (maxFS / 10) ≠ b / (maxFS / 10)
    · rw [if_pos hne]
      cases sz with
      | none => rfl
      | some s => simp only
    · rw [if_neg hne]

/-- Witness for C7: maxFileSize 100, counter 95, a 10-byte write crossing
the checkpoint at 100, stat size 100. -/
theorem rotation_only_at_checkpoints_witness :
    (writeSizeCheck 100 95 10 (some 100)).1 = true
    ∧ (writeSizeCheck 100 95 10 (some 100)).2 = 105 := by
  have h := rotation_only_at_checkpoints 100 95 10 (some 100) (by decide) (by decide) (by decide)
  refine ⟨h.1.mpr ⟨⟨10, by decide, by decide⟩, ⟨100, rfl, by decide⟩⟩, ?_⟩
  rw [h.2]
  decide

/-! ## Part 4: directory state, the log filename pattern, and the recycler -/

/-- One directory entry as seen through os.FileInfo plus, for log files,
the lines a bufio.Scanner would produce for its contents.  openable
models whether os.Open succeeds on it. -/
structure FsFile where
  name : String
  size : Int
  modTime : Int
  regular : Bool
  lines : List String
  openable : Bool
deriving DecidableEq

/-- redirect.go var logFileNameRe, over the character list: the anchored
pattern [0-9]{8}-[0-9]{6}_([0-9]{8}-[0-9]{6})_[0-9]+[.]log . -/
def logFileNameMatchChars (cs : List Char) : Bool :=
  let d1 := cs.take 8
  let r1 := cs.drop 8
  match r1 with
  | '-' :: r2 =>
    let t1 := r2.take 6
    let r3 := r2.drop 6
    match r3 with
    | '_' :: r4 =>
      let d2 := r4.take 8
      let r5 := r4.drop 8
      match r5 with
      | '-' :: r6 =>
        let t2 := r6.take 6
        let r7 := r6.drop 6
        match r7 with
        | '_' :: r8 =>
          let seq := r8.takeWhile Char.isDigit
          let tail := r8.dropWhile Char.isDigit
          (d1.length == 8) && d1.all Char.isDigit && (t1.length == 6) && t1.all Char.isDigit
            && (d2.length == 8) && d2.all Char.isDigit && (t2.length == 6) && t2.all Char.isDigit
            && !seq.isEmpty && (tail == ['.', 'l', 'o', 'g'])
        | _ => false
      | _ => false
    | _ => false
  | _ => false

/-- Whether a filename matches the logFileNameRe pattern of redirect.go. -/
def logFileNameMatches (s : String) : Bool :=
  logFileNameMatchChars s.data

/-- redirect.go func recycleOldLogFiles, deletion loop over the
mtime-sorted listing: skip non-regular entries and the active file,
delete any other entry, and stop once the running directory size is
within budget.  Returns the deleted files in deletion order.  (os.Remove
is modeled as succeeding.) -/
def recycleLoop (active : String) (maxDirSize : Int) : List FsFile → Int → List FsFile
  | [], _ => []
  | fi :: rest, dirSize =>
    if fi.regular = false then recycleLoop active maxDirSize rest dirSize
    else if fi.name = active then recycleLoop active maxDirSize rest dirSize
    else if dirSize - fi.size ≤ maxDirSize then [fi]
    else fi :: recycleLoop active maxDirSize rest (dirSize - fi.size)

/-- sort.Slice of Go by ModTime ascending (sort.Slice is unstable; the
model determinizes ties with a stable sort). -/
def sortByModTime (fis : List FsFile) : List FsFile :=
  List.insertionSort (fun a b => a.modTime ≤ b.modTime) fis

/-- redirect.go func recycleOldLogFiles: dirSize is the sum of the sizes
of every entry Readdir returned — regular or not, log-named or not; only
when it exceeds the budget does the deletion loop run over the
mtime-sorted listing.  Returns the deleted files. -/
def recycleOldLogFiles (fis : List FsFile) (active : String) (maxDirSize : Int) :
    List FsFile :=
  let dirSize := (fis.map (fun fi => fi.size)).sum
  if dirSize > maxDirSize then recycleLoop active maxDirSize (sortByModTime fis) dirSize
  else []

/-- The directory size the claim describes (the words of C8): the sum of the
sizes of exactly the regular files matching the log filename pattern. -/
def claimedLogDirSize (fis : List FsFile) : Int :=
  ((fis.filter fun fi => fi.regular && logFileNameMatches fi.name).map
    (fun fi => fi.size)).sum

/-- A non-log regular file sharing the directory. -/
def c8Junk : FsFile :=
  { name := "junk.txt", size := 60, modTime := 1, regular := true, lines := [],
    openable := true }

/-- The active log file of the C8 counterexample. -/
def c8Active : FsFile :=
  { name := "20180501-153256_20180501-153256_1.log", size := 50, modTime := 2,
    regular := true, lines := [], openable := true }

/-- C8 is false as stated: with budget 80, the matching regular files
total only 50, yet the recycler — which sums every directory entry and
deletes any regular file — finds 110 > 80 and deletes junk.txt. -/
theorem recycle_sums_all_entries_cex :
    claimedLogDirSize [c8Junk, c8Active] = 50 ∧ (50 : Int) ≤ 80
    ∧ recycleOldLogFiles [c8Junk, c8Active] "20180501-153256_20180501-153256_1.log" 80
      = [c8Junk] := by
  decide

/-- Properties of the deletion loop, for any running size strictly over
budget: deleted entries are regular non-active files taken in listing
order; either the final size is within budget or every candidate was
deleted; and before each deletion the running size was still over
budget. -/
theorem recycleLoop_props (active : String) (maxDirSize : Int) (l : List FsFile)
    (ds : Int) (hds : maxDirSize < ds) :
    (∀ fi ∈ recycleLoop active maxDirSize l ds, fi.regular = true ∧ fi.name ≠ active)
    ∧ (recycleLoop active maxDirSize l ds).Sublist l
    ∧ (ds - ((recycleLoop active maxDirSize l ds).map (fun fi => fi.size)).sum ≤ maxDirSize
       ∨ ∀ fi ∈ l, fi.regular = true → fi.name ≠ active →
           fi ∈ recycleLoop active maxDirSize l ds)
    ∧ (∀ k < (recycleLoop active maxDirSize l ds).length,
        maxDirSize < ds - (((recycleLoop active maxDirSize l ds).take k).map
          (fun fi => fi.size)).sum) := by
  induction l generalizing ds with
  | nil =>
    refine ⟨by simp [recycleLoop], by simp [recycleLoop], ?_, by simp [recycleLoop]⟩
    right
    simp
  | cons fi rest ih =>
    by_cases hreg : fi.regular = false
    · have hr := ih ds hds
      rw [recycleLoop, if_pos hreg]
      refine ⟨hr.1, hr.2.1.cons fi, ?_, hr.2.2.2⟩
      rcases hr.2.2.1 with h | h
      · exact Or.inl h
      · right
        intro fi' hfi' hreg' hact'
        rcases List.mem_cons.mp hfi' with rfl | hmem
        · rw [hreg'] at hreg
          exact absurd hreg (by simp)
        · exact h fi' hmem hreg' hact'
    · by_cases hact : fi.name = active
      · have hr := ih ds hds
        rw [recycleLoop, if_neg hreg, if_pos hact]
        refine ⟨hr.1, hr.2.1.cons fi, ?_, hr.2.2.2⟩
        rcases hr.2.2.1 with h | h
        · exact Or.inl h
        · right
          intro fi' hfi' hreg' hact'
          rcases List.mem_cons.mp hfi' with rfl | hmem
          · exact absurd hact hact'
          · exact h fi' hmem hreg' hact'
      · have hreg' : fi.regular = true := by
          revert hreg
          cases fi.regular <;> simp
        by_cases hstop : ds - fi.size ≤ maxDirSize
        · rw [recycleLoop, if_neg hreg, if_neg hact, if_pos hstop]
          refine ⟨?_, (List.nil_sublist rest).cons₂ fi, ?_, ?_⟩
          · intro fi' hfi'
            rcases List.mem_cons.mp hfi' with rfl | hmem
            · exact ⟨hreg', hact⟩
            · exact absurd hmem (by simp)
          · left
            simpa using hstop
          · intro k hk
            have hk0 : k = 0 := by
              simp at hk
              omega
            subst hk0
            simpa using hds
        · have hds' : maxDirSize < ds - fi.size := by omega
          have hr := ih (ds - fi.size) hds'
          rw [recycleLoop, if_neg hreg, if_neg hact, if_neg hstop]
          refine ⟨?_, hr.2.1.cons₂ fi, ?_, ?_⟩
          · intro fi' hfi'
            rcases List.mem_cons.mp hfi' with rfl | hmem
            · exact ⟨hreg', hact⟩
            · exact hr.1 fi' hmem
          · rcases hr.2.2.1 with h | h
            · left
              simp only [List.map_cons, List.sum_cons]
              omega
            · right
              intro fi' hfi' hreg2 hact2
              rcases List.mem_cons.mp hfi' with rfl | hmem
              · exact List.mem_cons_self _ _
              · exact List.mem_cons_of_mem fi (h fi' hmem hreg2 hact2)
          · intro k hk
            cases k with
            | zero => simpa using hds
            | succ j =>
              have hj : j < (recycleLoop active maxDirSize rest (ds - fi.size)).length := by
                simp at hk
                omega
              have h4 := hr.2.2.2 j hj
              simp only [List.take_succ_cons, List.map_cons, List.sum_cons]
              omega

instance : IsTotal FsFile fun a b => a.modTime ≤ b.modTime :=
  ⟨fun a b => le_total a.modTime b.modTime⟩

instance : IsTrans FsFile fun a b => a.modTime ≤ b.modTime :=
  ⟨fun _ _ _ hab hbc => le_trans hab hbc⟩

/-- What recycling does when the directory is over budget: only regular,
non-active files are deleted; deletions proceed in ascending
modification-time order; the loop runs until the total is within budget
or no candidate remains; and it never deletes more than needed (before
each deletion the running total was still over budget). -/
def RecycleOutcomeSpec (fis : List FsFile) (active : String) (maxDirSize : Int) : Prop :=
  (∀ fi ∈ recycleOldLogFiles fis active maxDirSize, fi.regular = true ∧ fi.name ≠ active)
  ∧ List.Pairwise (fun a b => a.modTime ≤ b.modTime) (recycleOldLogFiles fis active maxDirSize)
  ∧ ((fis.map fun fi => fi.size).sum
        - ((recycleOldLogFiles fis active maxDirSize).map fun fi => fi.size).sum ≤ maxDirSize
     ∨ ∀ fi ∈ fis, fi.regular = true → fi.name ≠ active →
         fi ∈ recycleOldLogFiles fis active maxDirSize)
  ∧ ∀ k < (recycleOldLogFiles fis active maxDirSize).length,
      maxDirSize < (fis.map fun fi => fi.size).sum
        - (((recycleOldLogFiles fis active maxDirSize).take k).map fun fi => fi.size).sum

/-- C8 amended: the recycler's trigger total is the sum over every
directory entry (see the counterexample for the mis-stated summation);
once over budget it deletes regular files other than the active one, in
ascending modification-time order, one at a time, stopping exactly when
the total is within budget or candidates are exhausted. -/
theorem recycle_deletes_oldest_until_under_budget (fis : List FsFile) (active : String)
    (maxDirSize : Int) (hover : maxDirSize < (fis.map fun fi => fi.size).sum) :
    RecycleOutcomeSpec fis active maxDirSize := by
  have hprops := recycleLoop_props active maxDirSize (sortByModTime fis)
    ((fis.map fun fi => fi.size).sum) hover
  have hunfold : recycleOldLogFiles fis active maxDirSize
      = recycleLoop active maxDirSize (sortByModTime fis)
        ((fis.map fun fi => fi.size).sum) := by
    unfold recycleOldLogFiles
    rw [if_pos hover]
  unfold RecycleOutcomeSpec
  rw [hunfold]
  have hsorted : List.Pairwise (fun a b : FsFile => a.modTime ≤ b.modTime)
      (sortByModTime fis) := by
    unfold sortByModTime
    exact List.sorted_insertionSort (fun a b : FsFile => a.modTime ≤ b.modTime) fis
  refine ⟨hprops.1, List.Pairwise.sublist hprops.2.1 hsorted, ?_, hprops.2.2.2⟩
  rcases hprops.2.2.1 with h | h
  · exact Or.inl h
  · right
    intro fi hfi hr ha
    have hmem : fi ∈ sortByModTime fis :=
      ((List.perm_insertionSort (fun a b : FsFile => a.modTime ≤ b.modTime) fis).mem_iff).mpr hfi
    exact h fi hmem hr ha

/-- Oldest file of the C8 witness directory. -/
def c8wA : FsFile :=
  { name := "20180501-153256_20180501-153256_1.log", size := 50, modTime := 1,
    regular := true, lines := [], openable := true }

/-- Middle file of the C8 witness directory. -/
def c8wB : FsFile :=
  { name := "20180501-153256_20180501-153300_2.log", size := 40, modTime := 2,
    regular := true, lines := [], openable := true }

/-- Active (newest) file of the C8 witness directory. -/
def c8wC : FsFile :=
  { name := "20180501-153256_20180501-153310_3.log", size := 30, modTime := 3,
    regular := true, lines := [], openable := true }

/-- Witness for the amended C8: budget 60, sizes 50+40+30, deletion stops
after removing the two oldest files. -/
theorem recycle_deletes_oldest_until_under_budget_witness :
    (60 : Int) < (([c8wA, c8wB, c8wC] : List FsFile).map fun fi => fi.size).sum
    ∧ RecycleOutcomeSpec [c8wA, c8wB, c8wC] "20180501-153256_20180501-153310_3.log" 60 :=
  ⟨by decide,
   recycle_deletes_oldest_until_under_budget [c8wA, c8wB, c8wC]
     "20180501-153256_20180501-153310_3.log" 60 (by decide)⟩

/-! ## Part 5: the retrieval engine (redirect.go LogLines and helpers)

Timestamps: Go parses with time.ParseInLocation in time.Local; the model
evaluates the parsed fields as UTC (a fixed-offset abstraction — every
use in the code compares two values parsed by the same function).
Parse failures are ignored in Go, leaving the zero time.Time, whose Unix
value the model reproduces. -/

/-- unicode.IsSpace, as used by strings.TrimSpace. -/
def isGoSpace (c : Char) : Bool :=
  c == ' ' || c == '\t' || c == '\n' || (11 ≤ c.toNat && c.toNat ≤ 13)
    || c.toNat == 0x85 || c.toNat == 0xA0 || c.toNat == 0x1680
    || (0x2000 ≤ c.toNat && c.toNat ≤ 0x200A)
    || c.toNat == 0x2028 || c.toNat == 0x2029 || c.toNat == 0x202F
    || c.toNat == 0x205F || c.toNat == 0x3000

/-- strings.TrimSpace on the character list: drop spaces at both ends. -/
def trimSpaceChars (cs : List Char) : List Char :=
  ((cs.dropWhile isGoSpace).reverse.dropWhile isGoSpace).reverse

/-- The character class [;0-9] of redirect.go var colorRe. -/
def isColorChar (c : Char) : Bool :=
  c == ';' || c.isDigit

/-- colorRe.ReplaceAllString(s, ""): remove every leftmost match of
ESC [ [;0-9]+ m .  Only an ESC can start a match, so after a failed
attempt the scan may resume one character later; the fuel argument (the
remaining length at the start) makes the recursion structural. -/
def stripColorsGo : Nat → List Char → List Char
  | 0, cs => cs
  | fuel + 1, [] => []
  | fuel + 1, c :: rest =>
    if c = '\x1b' then
      match rest with
      | '[' :: rest2 =>
        let run := rest2.takeWhile isColorChar
        let rest3 := rest2.dropWhile isColorChar
        match rest3 with
        | 'm' :: rest4 =>
          if run.isEmpty then c :: stripColorsGo fuel rest else stripColorsGo fuel rest4
        | _ => c :: stripColorsGo fuel rest
      | _ => c :: stripColorsGo fuel rest
    else c :: stripColorsGo fuel rest

/-- The per-line transformation of logLinesAfter / logLinesBefore:
colorRe.ReplaceAllString(strings.TrimSpace(line), ""). -/
def stripLine (line : String) : String :=
  let t := trimSpaceChars line.data
  String.mk (stripColorsGo t.length t)

/-- Go len() of a string: its UTF-8 byte count, as an Int (int64). -/
def goLen (s : String) : Int :=
  (s.utf8ByteSize : Int)

/-- Decimal digits to a number, most significant first. -/
def digitsToNat : List Char → Nat → Nat
  | [], acc => acc
  | c :: rest, acc => digitsToNat rest (10 * acc + (c.toNat - 48))

/-- Days from the civil epoch 1970-01-01 (the algorithm of Howard Hinnant). -/
def daysFromCivil (y m d : Int) : Int :=
  let y2 := y - (if m ≤ 2 then 1 else 0)
  let era := (if 0 ≤ y2 then y2 else y2 - 399) / 400
  let yoe := y2 - era * 400
  let doy := (153 * (m + (if m > 2 then -3 else 9)) + 2) / 5 + d - 1
  let doe := yoe * 365 + yoe / 4 - yoe / 100 + doy
  era * 146097 + doe - 719468

/-- Number of days of a month, as the Go date validation sees it. -/
def daysInMonth (y m : Int) : Int :=
  if m = 2 then
    (if y % 4 = 0 ∧ (y % 100 ≠ 0 ∨ y % 400 = 0) then 29 else 28)
  else if m = 4 ∨ m = 6 ∨ m = 9 ∨ m = 11 then 30
  else 31

/-- Unix value of the Go zero time.Time, left by an ignored parse error. -/
def goZeroTimeUnix : Int := -62135596800

/-- time.ParseInLocation on already-matched digit fields: range-check the
fields as the Go parser does, then convert; a failed parse leaves the zero
time. -/
def civilToUnix (y mo d h mi s : Int) : Int :=
  if 1 ≤ mo ∧ mo ≤ 12 ∧ 1 ≤ d ∧ d ≤ daysInMonth y mo ∧ 0 ≤ h ∧ h ≤ 23
      ∧ 0 ≤ mi ∧ mi ≤ 59 ∧ 0 ≤ s ∧ s ≤ 59 then
    daysFromCivil y mo d * 86400 + h * 3600 + mi * 60 + s
  else goZeroTimeUnix

/-- Parse a LOG_FILE_TIME_FORMAT block dddddddd-dddddd (already known to
be digits in those positions). -/
def parseFileTsBlock (cs : List Char) : Int :=
  let y := digitsToNat (cs.take 4) 0
  let mo := digitsToNat ((cs.drop 4).take 2) 0
  let d := digitsToNat ((cs.drop 6).take 2) 0
  let h := digitsToNat ((cs.drop 9).take 2) 0
  let mi := digitsToNat ((cs.drop 11).take 2) 0
  let s := digitsToNat ((cs.drop 13).take 2) 0
  civilToUnix y mo d h mi s

/-- redirect.go func LogFileStartTs: extract submatch 1 of logFileNameRe
(the second timestamp block, characters 16..30) and parse it.  On a
filename that does not match, FindStringSubmatch returns nil and the Go
code panics indexing it — modeled as none. -/
def LogFileStartTs (fileName : String) : Option Int :=
  if logFileNameMatches fileName then
    some (parseFileTsBlock (fileName.data.drop 16))
  else none

/-- redirect.go func LogLineTs over the character list: match the
anchored prefix ([0-9]{4}/[0-9]{2}/[0-9]{2} [0-9]{2}:[0-9]{2}:[0-9]{2})
and parse it; a line without the prefix has timestamp 0. -/
def logLineTsChars (cs : List Char) : Int :=
  let y := cs.take 4
  let r1 := cs.drop 4
  match r1 with
  | '/' :: r2 =>
    let mo := r2.take 2
    let r3 := r2.drop 2
    match r3 with
    | '/' :: r4 =>
      let d := r4.take 2
      let r5 := r4.drop 2
      match r5 with
      | ' ' :: r6 =>
        let h := r6.take 2
        let r7 := r6.drop 2
        match r7 with
        | ':' :: r8 =>
          let mi := r8.take 2
          let r9 := r8.drop 2
          match r9 with
          | ':' :: r10 =>
            let s := r10.take 2
            if (y.length == 4) && y.all Char.isDigit && (mo.length == 2) && mo.all Char.isDigit
                && (d.length == 2) && d.all Char.isDigit && (h.length == 2) && h.all Char.isDigit
                && (mi.length == 2) && mi.all Char.isDigit
                && (s.length == 2) && s.all Char.isDigit then
              civilToUnix (digitsToNat y 0) (digitsToNat mo 0) (digitsToNat d 0)
                (digitsToNat h 0) (digitsToNat mi 0) (digitsToNat s 0)
            else 0
          | _ => 0
        | _ => 0
      | _ => 0
    | _ => 0
  | _ => 0

/-- redirect.go func LogLineTs. -/
def LogLineTs (logLine : String) : Int :=
  logLineTsChars logLine.data

/-- The scan loop of redirect.go func logLinesAfter: while findFirstLine
is set, skip lines whose parsed timestamp is below startTs; afterwards
strip and collect each line, decrementing the budget by the stripped
length and stopping once it is exhausted.  Returns the collected lines
and the remaining budget. -/
def logLinesAfterScan (startTs : Int) : List String → Bool → Int → List String × Int
  | [], _, b => ([], b)
  | line :: rest, findFirst, b =>
    if findFirst ∧ LogLineTs line < startTs then
      logLinesAfterScan startTs rest findFirst b
    else
      let s := stripLine line
      let b' := b - goLen s
      if b' ≤ 0 then ([s], b')
      else
        let p := logLinesAfterScan startTs rest false b'
        (s :: p.1, p.2)

/-- redirect.go func logLinesAfter: an unopenable file contributes
nothing (the error is only logged); otherwise scan with findFirstLine
initialized from the file-name timestamp. -/
def logLinesAfter (fi : FsFile) (startTs : Int) (numBytes : Int) : List String × Int :=
  if fi.openable then
    logLinesAfterScan startTs fi.lines
      (decide ((LogFileStartTs fi.name).getD 0 < startTs)) numBytes
  else ([], numBytes)

/-- The collect loop of redirect.go func logLinesBefore: strip and keep
every line until (for a positive threshold) one parses to a timestamp at
or past it. -/
def logLinesBeforeCollect (startTs : Int) : List String → List String
  | [] => []
  | line :: rest =>
    if startTs > 0 ∧ LogLineTs line ≥ startTs then []
    else stripLine line :: logLinesBeforeCollect startTs rest

/-- The backward trimming loop of redirect.go func logLinesBefore,
walking the collected lines from the end (the argument is the collected
list reversed): subtract each length and cut at the first line that
exhausts the budget; the kept suffix is returned in original order,
together with the remaining budget. -/
def takeFromEnd : List String → Int → List String × Int
  | [], b => ([], b)
  | s :: restRev, b =>
    let b' := b - goLen s
    if b' ≤ 0 then ([s], b')
    else
      let p := takeFromEnd restRev b'
      (p.1 ++ [s], p.2)

/-- redirect.go func logLinesBefore: collect the lines before the
threshold (all lines when startTs ≤ 0), then keep the largest tail the
budget allows. -/
def logLinesBefore (fi : FsFile) (startTs : Int) (numBytes : Int) : List String × Int :=
  if fi.openable then
    takeFromEnd (logLinesBeforeCollect startTs fi.lines).reverse numBytes
  else ([], numBytes)

/-- Byte-wise lexicographic comparison of Go strings, on code points
(UTF-8 byte order coincides with code-point order). -/
def charListLe : List Char → List Char → Bool
  | [], _ => true
  | _ :: _, [] => false
  | a :: as, b :: bs =>
    if a < b then true
    else if b < a then false
    else charListLe as bs

/-- The sort order of LogLines ("latest files first"): descending by
file name. -/
abbrev nameDescOrder (a b : FsFile) : Prop :=
  charListLe b.name.data a.name.data = true

/-- sort.Slice of Go with the comparison Name(i) > Name(j), determinized. -/
def sortByNameDesc (fis : List FsFile) : List FsFile :=
  List.insertionSort nameDescOrder fis

/-- The loop of sort.Search of Go: binary search for the smallest index
where f holds, assuming f is monotone.  The fuel (initially n ≥ j - i)
makes the recursion structural. -/
def goSearchLoop : Nat → (Nat → Bool) → Nat → Nat → Nat
  | 0, _, i, _ => i
  | fuel + 1, f, i, j =>
    if i < j then
      let h := (i + j) / 2
      if f h then goSearchLoop fuel f i h
      else goSearchLoop fuel f (h + 1) j
    else i

/-- sort.Search(n, f) of Go. -/
def sortSearch (n : Nat) (f : Nat → Bool) : Nat :=
  goSearchLoop n f 0 n

/-- A placeholder FileInfo for out-of-range indexing in the model (the
searches only ever evaluate in-range indices). -/
def dummyFsFile : FsFile :=
  { name := "", size := 0, modTime := 0, regular := false, lines := [], openable := false }

/-- The file-name timestamp as the search predicates read it (always on
names that matched the pattern, so the getD default is never taken). -/
def fileTsD (fi : FsFile) : Int :=
  (LogFileStartTs fi.name).getD 0

/-- The loop of LogLines for startTs > 0: files from the search start
back toward the newest, appending each chunk, stopping on an exhausted
budget. -/
def afterLoop (startTs : Int) : List FsFile → Int → List String
  | [], _ => []
  | fi :: rest, b =>
    let p := logLinesAfter fi startTs b
    if p.2 ≤ 0 then p.1
    else p.1 ++ afterLoop startTs rest p.2

/-- The loop of LogLines for startTs ≤ 0: files newest first, each chunk
prepended to the lines collected so far; after the first iteration the
Go code sets startTs = 0, so every later file is read from its end. -/
def beforeLoop : List FsFile → Int → Int → List String
  | [], _, _ => []
  | fi :: rest, t, b =>
    let p := logLinesBefore fi t b
    if p.2 ≤ 0 then p.1
    else beforeLoop rest 0 p.2 ++ p.1

/-- redirect.go func (l *LogRedirector) LogLines: filter the directory to
regular files matching logFileNameRe, sort latest-first by name, then
dispatch on the sign of startTs; see the loops above. -/
def LogLines (fis : List FsFile) (startTs numBytes : Int) : List String :=
  let flt := fis.filter fun fi => fi.regular && logFileNameMatches fi.name
  if flt.length = 0 then []
  else
    let sorted := sortByNameDesc flt
    if startTs = 0 then
      beforeLoop sorted 0 numBytes
    else if startTs > 0 then
      let start := sortSearch sorted.length
        (fun i => decide (fileTsD (sorted.getD i dummyFsFile) ≤ startTs))
      let start2 := if start = sorted.length then sorted.length - 1 else start
      afterLoop startTs ((sorted.take (start2 + 1)).reverse) numBytes
    else
      let t := -startTs
      let start := sortSearch sorted.length
        (fun i => decide (fileTsD (sorted.getD i dummyFsFile) < t))
      beforeLoop (sorted.drop start) t numBytes

/-! ### Budget accounting (C1) -/

/-- Total Go length of a list of lines. -/
def sumLen (ls : List String) : Int :=
  (ls.map goLen).sum

/-- Length of the first line, 0 for an empty list. -/
def headLen (ls : List String) : Int :=
  ((ls.head?).map goLen).getD 0

/-- Length of the last line, 0 for an empty list. -/
def lastLen (ls : List String) : Int :=
  ((ls.getLast?).map goLen).getD 0

theorem goLen_nonneg (s : String) : 0 ≤ goLen s :=
  Int.natCast_nonneg _

theorem sumLen_nil : sumLen [] = 0 := rfl

theorem sumLen_cons (s : String) (ls : List String) :
    sumLen (s :: ls) = goLen s + sumLen ls := by
  simp [sumLen]

theorem sumLen_append (a c : List String) : sumLen (a ++ c) = sumLen a + sumLen c := by
  simp [sumLen]

theorem sumLen_nonneg (ls : List String) : 0 ≤ sumLen ls := by
  induction ls with
  | nil => simp [sumLen]
  | cons s rest ih =>
    rw [sumLen_cons]
    have := goLen_nonneg s
    omega

theorem headLen_append_left (a c : List String) (h : a ≠ []) :
    headLen (a ++ c) = headLen a := by
  cases a with
  | nil => exact absurd rfl h
  | cons s rest => simp [headLen]

theorem lastLen_append_right (a c : List String) (h : c ≠ []) :
    lastLen (a ++ c) = lastLen c := by
  unfold lastLen
  rw [List.getLast?_append]
  cases hc : c.getLast? with
  | none =>
    rcases c with _ | ⟨x, xs⟩
    · exact absurd rfl h
    · exact absurd hc (by simp [List.getLast?_cons])
  | some v => simp

/-- Budget bookkeeping of the logLinesAfter scan: the budget drops by
exactly the total collected length, and all collected lines but the last
fit strictly inside the entry budget. -/
theorem logLinesAfterScan_budget (t : Int) (lines : List String) (flag : Bool) (b : Int)
    (hb : 0 < b) :
    (logLinesAfterScan t lines flag b).2 = b - sumLen (logLinesAfterScan t lines flag b).1
    ∧ sumLen (logLinesAfterScan t lines flag b).1
        - lastLen (logLinesAfterScan t lines flag b).1 < b := by
  induction lines generalizing flag b with
  | nil =>
    simp [logLinesAfterScan, sumLen, lastLen]
    omega
  | cons line rest ih =>
    rw [logLinesAfterScan]
    by_cases hskip : flag = true ∧ LogLineTs line < t
    · rw [if_pos hskip]
      exact ih flag b hb
    · rw [if_neg hskip]
      simp only
      by_cases hstop : b - goLen (stripLine line) ≤ 0
      · rw [if_pos hstop]
        simp only
        constructor
        · simp [sumLen]
        · simp [sumLen, lastLen]
          omega
      · rw [if_neg hstop]
        simp only
        have hb' : 0 < b - goLen (stripLine line) := by omega
        have hr := ih false (b - goLen (stripLine line)) hb'
        constructor
        · rw [sumLen_cons]
          omega
        · rw [sumLen_cons]
          cases hA : (logLinesAfterScan t rest false (b - goLen (stripLine line))).1 with
          | nil =>
            rw [hA] at hr
            simp [lastLen, sumLen_nil] at hr ⊢
            have := goLen_nonneg (stripLine line)
            omega
          | cons a as =>
            rw [hA] at hr
            have hlast : lastLen (stripLine line :: a :: as) = lastLen (a :: as) := by
              have : stripLine line :: a :: as = [stripLine line] ++ (a :: as) := rfl
              rw [this, lastLen_append_right _ _ (by simp)]
            rw [hlast]
            omega

/-- The same bookkeeping for logLinesAfter itself. -/
theorem logLinesAfter_budget (fi : FsFile) (t b : Int) (hb : 0 < b) :
    (logLinesAfter fi t b).2 = b - sumLen (logLinesAfter fi t b).1
    ∧ sumLen (logLinesAfter fi t b).1 - lastLen (logLinesAfter fi t b).1 < b := by
  unfold logLinesAfter
  split
  · exact logLinesAfterScan_budget t fi.lines _ b hb
  · simp [sumLen, lastLen]
    omega

/-- Budget bookkeeping of the backward trim: all kept lines but the
(chronologically) first fit strictly inside the entry budget. -/
theorem takeFromEnd_budget (rev : List String) (b : Int) (hb : 0 < b) :
    (takeFromEnd rev b).2 = b - sumLen (takeFromEnd rev b).1
    ∧ sumLen (takeFromEnd rev b).1 - headLen (takeFromEnd rev b).1 < b := by
  induction rev generalizing b with
  | nil =>
    simp [takeFromEnd, sumLen, headLen]
    omega
  | cons s restRev ih =>
    rw [takeFromEnd]
    simp only
    by_cases hstop : b - goLen s ≤ 0
    · rw [if_pos hstop]
      simp only
      constructor
      · simp [sumLen]
      · simp [sumLen, headLen]
        omega
    · rw [if_neg hstop]
      simp only
      have hb' : 0 < b - goLen s := by omega
      have hr := ih (b - goLen s) hb'
      constructor
      · rw [sumLen_append, sumLen_cons, sumLen_nil]
        omega
      · rw [sumLen_append, sumLen_cons, sumLen_nil]
        cases hA : (takeFromEnd restRev (b - goLen s)).1 with
        | nil =>
          rw [hA] at hr
          simp [sumLen_nil, headLen] at hr ⊢
          have := goLen_nonneg s
          omega
        | cons a as =>
          rw [hA] at hr
          rw [headLen_append_left _ _ (by simp)]
          omega

/-- The same bookkeeping for logLinesBefore. -/
theorem logLinesBefore_budget (fi : FsFile) (t b : Int) (hb : 0 < b) :
    (logLinesBefore fi t b).2 = b - sumLen (logLinesBefore fi t b).1
    ∧ sumLen (logLinesBefore fi t b).1 - headLen (logLinesBefore fi t b).1 < b := by
  unfold logLinesBefore
  split
  · exact takeFromEnd_budget _ b hb
  · simp [sumLen, headLen]
    omega

/-- Budget bound of the startTs > 0 loop: all returned lines except the
last fit strictly under the remaining budget. -/
theorem afterLoop_budget (t : Int) (l : List FsFile) (b : Int) (hb : 0 < b) :
    sumLen (afterLoop t l b) - lastLen (afterLoop t l b) < b := by
  induction l generalizing b with
  | nil =>
    show sumLen [] - lastLen [] < b
    simp [sumLen, lastLen]
    omega
  | cons fi rest ih =>
    rw [afterLoop]
    have hfi := logLinesAfter_budget fi t b hb
    by_cases hstop : (logLinesAfter fi t b).2 ≤ 0
    · rw [if_pos hstop]
      exact hfi.2
    · rw [if_neg hstop]
      have hb' : 0 < (logLinesAfter fi t b).2 := by omega
      have hr := ih (logLinesAfter fi t b).2 hb'
      cases hA : afterLoop t rest (logLinesAfter fi t b).2 with
      | nil =>
        rw [hA] at hr
        simp only [List.append_nil]
        exact hfi.2
      | cons a as =>
        rw [hA] at hr
        rw [sumLen_append, lastLen_append_right _ _ (by simp)]
        have h2 := hfi.1
        have h3 := hfi.2
        rw [sumLen_cons] at hr ⊢
        omega

/-- Budget bound of the startTs ≤ 0 loop: all returned lines except the
(chronologically) first fit strictly under the remaining budget. -/
theorem beforeLoop_budget (l : List FsFile) (t b : Int) (hb : 0 < b) :
    sumLen (beforeLoop l t b) - headLen (beforeLoop l t b) < b := by
  induction l generalizing t b with
  | nil =>
    show sumLen [] - headLen [] < b
    simp [sumLen, headLen]
    omega
  | cons fi rest ih =>
    rw [beforeLoop]
    have hfi := logLinesBefore_budget fi t b hb
    by_cases hstop : (logLinesBefore fi t b).2 ≤ 0
    · rw [if_pos hstop]
      exact hfi.2
    · rw [if_neg hstop]
      have hb' : 0 < (logLinesBefore fi t b).2 := by omega
      have hr := ih 0 (logLinesBefore fi t b).2 hb'
      cases hA : beforeLoop rest 0 (logLinesBefore fi t b).2 with
      | nil =>
        rw [hA] at hr
        simp only [List.nil_append]
        exact hfi.2
      | cons a as =>
        rw [hA] at hr
        rw [sumLen_append, headLen_append_left _ _ (by simp)]
        have h2 := hfi.1
        have h3 := hfi.2
        rw [sumLen_cons] at hr ⊢
        omega

/-- The boundary line of a LogLines result whose length the budget bound
excludes: the chronologically last line for a forward (startTs > 0)
query, the chronologically first one otherwise. -/
def boundaryLen (startTs : Int) (ls : List String) : Int :=
  if startTs > 0 then lastLen ls else headLen ls

/-- C1 amended: LogLines can overshoot the byte budget, but only by the
one boundary line: the total stripped length of the returned lines minus
the boundary line's length is strictly below numBytes (so the total is
at most numBytes - 1 plus one line's length). -/
theorem logLines_budget_overshoot_bounded (fis : List FsFile) (startTs numBytes : Int)
    (hb : 0 < numBytes) :
    sumLen (LogLines fis startTs numBytes)
      - boundaryLen startTs (LogLines fis startTs numBytes) < numBytes := by
  unfold LogLines
  by_cases hflt : (fis.filter fun fi => fi.regular && logFileNameMatches fi.name).length = 0
  · rw [if_pos hflt]
    unfold boundaryLen
    split <;> simp [sumLen, lastLen, headLen] <;> omega
  · rw [if_neg hflt]
    simp only
    by_cases h0 : startTs = 0
    · rw [if_pos h0]
      unfold boundaryLen
      rw [if_neg (by omega : ¬ startTs > 0)]
      exact beforeLoop_budget _ 0 numBytes hb
    · rw [if_neg h0]
      by_cases hpos : startTs > 0
      · rw [if_pos hpos]
        unfold boundaryLen
        rw [if_pos hpos]
        exact afterLoop_budget startTs _ numBytes hb
      · rw [if_neg hpos]
        unfold boundaryLen
        rw [if_neg hpos]
        exact beforeLoop_budget _ _ numBytes hb

/-- The single log file of the C1 counterexample directory. -/
def c1File : FsFile :=
  { name := "20180501-153256_20180501-153256_1.log", size := 5, modTime := 1,
    regular := true, lines := ["hello"], openable := true }

/-- C1 is false as stated: with budget 1, LogLines(0, 1) returns the full
5-byte line, so the total stripped length exceeds numBytes. -/
theorem logLines_budget_cex :
    LogLines [c1File] 0 1 = ["hello"]
    ∧ sumLen (LogLines [c1File] 0 1) = 5
    ∧ (1 : Int) < 5 := by
  decide

/-- Witness for the amended C1 on a two-file directory at budget 5. -/
theorem logLines_budget_overshoot_bounded_witness :
    sumLen (LogLines [c1File] 0 5) - boundaryLen 0 (LogLines [c1File] 0 5) < 5 :=
  logLines_budget_overshoot_bounded [c1File] 0 5 (by decide)

/-! ### C10: partiality of LogFileStartTs, guarded inside LogLines -/

/-- C10: LogFileStartTs panics (models as none) exactly on filenames that
do not match logFileNameRe, and succeeds on matching ones; LogLines only
ever applies it to names that survived the same-pattern filter, so the
precondition always holds there. -/
theorem logFileStartTs_partial_guarded :
    (∀ s : String, logFileNameMatches s = false → LogFileStartTs s = none)
    ∧ (∀ s : String, logFileNameMatches s = true → (LogFileStartTs s).isSome = true)
    ∧ ∀ (fis : List FsFile) (fi : FsFile),
        fi ∈ (fis.filter fun f2 => f2.regular && logFileNameMatches f2.name) →
        (LogFileStartTs fi.name).isSome = true := by
  refine ⟨?_, ?_, ?_⟩
  · intro s h
    simp [LogFileStartTs, h]
  · intro s h
    simp [LogFileStartTs, h]
  · intro fis fi hmem
    have hf := List.of_mem_filter hmem
    simp only [Bool.and_eq_true] at hf
    simp [LogFileStartTs, hf.2]

/-- Witness for C10: the "latest" symlink name panics; a well-formed log
name parses. -/
theorem logFileStartTs_partial_guarded_witness :
    LogFileStartTs "latest" = none
    ∧ (LogFileStartTs "20180501-153256_20180501-153256_1.log").isSome = true :=
  ⟨logFileStartTs_partial_guarded.1 "latest" (by decide),
   logFileStartTs_partial_guarded.2.1 "20180501-153256_20180501-153256_1.log" (by decide)⟩

/-! ### C9: the negative-startTs query and its per-file threshold reset -/

/-- From the spec's words for C9, the tail stage: "for every subsequent,
older file the threshold resets to take-from-file-end", i.e. each older
file contributes its whole tail under the remaining budget, prepended so
the assembly is oldest-file-first. -/
def wholeTails : List FsFile → Int → List String
  | [], _ => []
  | fi :: rest, b =>
    let p := logLinesBefore fi 0 b
    if p.2 ≤ 0 then p.1 else wholeTails rest p.2 ++ p.1

/-- From the spec's words for C9: the first scanned file is filtered to
lines strictly before the threshold; every subsequent, older file
contributes its entire tail under the remaining budget; the combined
result is assembled in chronological (oldest-file-first) order. -/
def beforeQuerySpec (t : Int) (l : List FsFile) (b : Int) : List String :=
  match l with
  | [] => []
  | fi :: rest =>
    let p := logLinesBefore fi t b
    if p.2 ≤ 0 then p.1 else wholeTails rest p.2 ++ p.1

theorem beforeLoop_zero_eq_wholeTails (l : List FsFile) (b : Int) :
    beforeLoop l 0 b = wholeTails l b := by
  induction l generalizing b with
  | nil => rfl
  | cons fi rest ih =>
    rw [beforeLoop, wholeTails]
    by_cases hstop : (logLinesBefore fi 0 b).2 ≤ 0
    · rw [if_pos hstop, if_pos hstop]
    · rw [if_neg hstop, if_neg hstop, ih]

theorem beforeLoop_eq_beforeQuerySpec (l : List FsFile) (t b : Int) :
    beforeLoop l t b = beforeQuerySpec t l b := by
  cases l with
  | nil => rfl
  | cons fi rest =>
    rw [beforeLoop, beforeQuerySpec]
    by_cases hstop : (logLinesBefore fi t b).2 ≤ 0
    · rw [if_pos hstop, if_pos hstop]
    · rw [if_neg hstop, if_neg hstop, beforeLoop_zero_eq_wholeTails]

/-- Invariant proof of the sort.Search loop for a monotone predicate:
everything below the result is false, everything from the result up to
n0 is true. -/
theorem goSearchLoop_inv (f : Nat → Bool) (n0 : Nat)
    (hmono : ∀ a b0 : Nat, a ≤ b0 → b0 < n0 → f a = true → f b0 = true) :
    ∀ (fuel i j : Nat), i ≤ j → j ≤ n0 → j - i ≤ fuel →
      (∀ k < i, f k = false) → (∀ k, j ≤ k → k < n0 → f k = true) →
      i ≤ goSearchLoop fuel f i j ∧ goSearchLoop fuel f i j ≤ j
      ∧ (∀ k < goSearchLoop fuel f i j, f k = false)
      ∧ (∀ k, goSearchLoop fuel f i j ≤ k → k < n0 → f k = true) := by
  intro fuel
  induction fuel with
  | zero =>
    intro i j hij hjn hfuel hlow hhigh
    rw [goSearchLoop]
    exact ⟨le_refl i, hij, hlow, fun k hk1 hk2 => hhigh k (by omega) hk2⟩
  | succ fuel ih =>
    intro i j hij hjn hfuel hlow hhigh
    rw [goSearchLoop]
    by_cases hij2 : i < j
    · rw [if_pos hij2]
      have hhi : i ≤ (i + j) / 2 := by
        rw [Nat.le_div_iff_mul_le (by omega : 0 < 2)]
        omega
      have hhj : (i + j) / 2 < j := by
        rw [Nat.div_lt_iff_lt_mul (by omega : 0 < 2)]
        omega
      by_cases hf : f ((i + j) / 2) = true
      · rw [if_pos hf]
        have hres := ih i ((i + j) / 2) hhi (by omega) (by omega) hlow
          (fun k hk hkn => hmono ((i + j) / 2) k hk hkn hf)
        exact ⟨hres.1, by omega, hres.2.2.1, hres.2.2.2⟩
      · rw [if_neg hf]
        have hlow2 : ∀ k < (i + j) / 2 + 1, f k = false := by
          intro k hk
          by_cases hki : k < i
          · exact hlow k hki
          · by_contra hke
            have hke2 : f k = true := by
              revert hke
              cases f k <;> simp
            exact hf (hmono k ((i + j) / 2) (by omega) (by omega) hke2)
        have hres := ih ((i + j) / 2 + 1) j (by omega) hjn (by omega) hlow2 hhigh
        exact ⟨by omega, hres.2.1, hres.2.2.1, hres.2.2.2⟩
    · rw [if_neg hij2]
      have hieq : i = j := by omega
      exact ⟨le_refl i, by omega, hlow, fun k hk1 hk2 => hhigh k (by omega) hk2⟩

/-- sort.Search(n, f) with a monotone predicate returns the least index
where f holds (n when there is none). -/
theorem sortSearch_least (n : Nat) (f : Nat → Bool)
    (hmono : ∀ a b0 : Nat, a ≤ b0 → b0 < n → f a = true → f b0 = true) :
    sortSearch n f ≤ n ∧ (∀ k < sortSearch n f, f k = false)
    ∧ ∀ k, sortSearch n f ≤ k → k < n → f k = true := by
  have hres := goSearchLoop_inv f n hmono n 0 n (by omega) (le_refl n) (by omega)
    (fun k hk => absurd hk (by omega)) (fun k hk1 hk2 => absurd hk1 (by omega))
  exact ⟨hres.2.1, hres.2.2.1, hres.2.2.2⟩

/-- The filtered, latest-first file list LogLines works on. -/
def logFilesSorted (fis : List FsFile) : List FsFile :=
  sortByNameDesc (fis.filter fun fi => fi.regular && logFileNameMatches fi.name)

/-- The start index of the negative-startTs scan: sort.Search for the
first (newest) file whose creation timestamp is below the threshold. -/
def beforeSearchStart (fis : List FsFile) (t : Int) : Nat :=
  sortSearch (logFilesSorted fis).length
    (fun i => decide (fileTsD ((logFilesSorted fis).getD i dummyFsFile) < t))

/-- The C9 property of a negative-startTs query: the result equals the
spec-worded description (first scanned file threshold-filtered, every
older file read whole from its end, oldest-first assembly), and the scan
starts exactly at the newest file with creation timestamp strictly below
the threshold. -/
def NegativeQuerySpec (fis : List FsFile) (startTs numBytes : Int) : Prop :=
  LogLines fis startTs numBytes
    = beforeQuerySpec (-startTs)
        ((logFilesSorted fis).drop (beforeSearchStart fis (-startTs))) numBytes
  ∧ (∀ k < beforeSearchStart fis (-startTs),
      ¬ fileTsD ((logFilesSorted fis).getD k dummyFsFile) < -startTs)
  ∧ ∀ k, beforeSearchStart fis (-startTs) ≤ k → k < (logFilesSorted fis).length →
      fileTsD ((logFilesSorted fis).getD k dummyFsFile) < -startTs

/-- C9: for startTs < 0 the query filters only its first scanned file by
the |startTs| threshold, resets the threshold for every older file
(entire tail under the remaining budget), and assembles chronologically;
the binary search picks the newest file with creation timestamp below
the threshold.  Monotonicity of the search predicate along the sorted
listing (true in a directory of well-ordered names) is assumed, as
sort.Search requires. -/
theorem logLines_negative_threshold_resets (fis : List FsFile) (startTs numBytes : Int)
    (hneg : startTs < 0)
    (hne : ¬ (fis.filter fun fi => fi.regular && logFileNameMatches fi.name).length = 0)
    (hmono : ∀ b0 < (logFilesSorted fis).length, ∀ a ≤ b0,
        fileTsD ((logFilesSorted fis).getD a dummyFsFile) < -startTs →
        fileTsD ((logFilesSorted fis).getD b0 dummyFsFile) < -startTs) :
    NegativeQuerySpec fis startTs numBytes := by
  have hls := sortSearch_least (logFilesSorted fis).length
    (fun i => decide (fileTsD ((logFilesSorted fis).getD i dummyFsFile) < -startTs))
    (fun a b0 hab hbn hfa =>
      decide_eq_true (hmono b0 hbn a hab (of_decide_eq_true hfa)))
  unfold NegativeQuerySpec
  refine ⟨?_, ?_, ?_⟩
  · show LogLines fis startTs numBytes = _
    unfold LogLines
    rw [if_neg hne, if_neg (by omega : ¬ startTs = 0), if_neg (by omega : ¬ startTs > 0)]
    rw [beforeLoop_eq_beforeQuerySpec]
    rfl
  · intro k hk
    simp only [beforeSearchStart] at hk
    exact of_decide_eq_false (hls.2.1 k hk)
  · intro k h1 h2
    simp only [beforeSearchStart] at h1
    exact of_decide_eq_true (hls.2.2 k h1 h2)

/-- Oldest file of the C9 witness directory. -/
def wf1 : FsFile :=
  { name := "20180501-150000_20180501-150000_1.log", size := 0, modTime := 1, regular := true,
    lines := ["2018/05/01 15:00:00 a"], openable := true }

/-- Middle file of the C9 witness directory: the first file the negative
query scans, filtered by the threshold. -/
def wf2 : FsFile :=
  { name := "20180501-150000_20180501-153000_2.log", size := 0, modTime := 2, regular := true,
    lines := ["2018/05/01 15:30:00 b1", "2018/05/01 15:45:00 b2"], openable := true }

/-- Newest file of the C9 witness directory, past the threshold. -/
def wf3 : FsFile :=
  { name := "20180501-150000_20180501-160000_3.log", size := 0, modTime := 3, regular := true,
    lines := ["2018/05/01 16:00:00 c"], openable := true }

/-- Witness for C9: threshold 2018-05-01 15:45 (1525189500): the newest
eligible file is wf2 (filtered), wf1 contributes its whole tail, and the
result is chronological. -/
theorem logLines_negative_threshold_resets_witness :
    NegativeQuerySpec [wf1, wf2, wf3] (-1525189500) 1000 :=
  logLines_negative_threshold_resets [wf1, wf2, wf3] (-1525189500) 1000
    (by decide) (by decide) (by decide)
